import Mathlib

/-!
Shallow embedding of the flashcards application core (`src/flashcards.py`):
persistence (`load_data` / `save_data`), text normalization (`normalize_words`),
and the session / controller operations of `FlashcardApp`
(`start_session`, `reshuffle`, `prev_card`, `next_card`, `save_new_set`,
`delete_selected_group`).

Modelling conventions:
* Python strings are Lean `String`; `str.strip` / `str.splitlines` /
  `str.lower` are modelled over the character list with the common
  (ASCII-centric) whitespace, line-break and case-folding sets — every input
  appearing in the claims is ASCII.
* The JSON file channel is modelled by the parse result: `load_data` takes a
  flag for file existence and an `Option Json` (`none` = parse failure), the
  way `json.load` hands a Python value (or raises) to the caller.
* Randomness is modelled by an explicit tape of naturals feeding the
  Fisher-Yates loop of `random.shuffle`.
* The Tk widget state that an operation reads (selected list entry, entry
  field, text field, dialog answers) is passed as arguments; dialogs that an
  operation pops are returned as flags/outcome values.
-/

namespace Flashcards

/-- Whitespace characters stripped by Python `str.strip()`
(ASCII and Latin-1 subset of Unicode whitespace). -/
def isPySpace (c : Char) : Bool :=
  c = ' ' || c = '\t' || c = '\n' || c = '\r' || c = '\x0b' || c = '\x0c' ||
  c = '\x1c' || c = '\x1d' || c = '\x1e' || c = '\x1f' || c = '\x85' || c = '\xa0'

/-- Drop leading whitespace. -/
def trimStart (l : List Char) : List Char := l.dropWhile isPySpace

/-- Drop trailing whitespace. -/
def trimEnd (l : List Char) : List Char := (l.reverse.dropWhile isPySpace).reverse

/-- Python `s.strip()`. -/
def pyStrip (s : String) : String := String.mk (trimEnd (trimStart s.data))

/-- Line-break characters recognised by Python `str.splitlines()`
(ASCII and Latin-1 subset plus the Unicode separators). -/
def isLineBreak (c : Char) : Bool :=
  c = '\n' || c = '\r' || c = '\x0b' || c = '\x0c' || c = '\x1c' || c = '\x1d' ||
  c = '\x1e' || c = '\x85' || c = '\u2028' || c = '\u2029'

/-- Worker for `splitlines`: accumulates the current line (reversed). -/
def splitlinesAux : List Char → List Char → List String
  | [], acc => if acc.isEmpty then [] else [String.mk acc.reverse]
  | '\r' :: '\n' :: rest, acc => String.mk acc.reverse :: splitlinesAux rest []
  | c :: rest, acc =>
      if isLineBreak c then String.mk acc.reverse :: splitlinesAux rest []
      else splitlinesAux rest (c :: acc)

/-- Python `s.splitlines()`: split at line breaks (`\r\n` counts once),
breaks not included, no trailing empty line. -/
def splitlines (s : String) : List String := splitlinesAux s.data []

/-- ASCII case folding of one character (kernel-reducible). -/
def lowerChar (c : Char) : Char :=
  match c with
  | 'A' => 'a' | 'B' => 'b' | 'C' => 'c' | 'D' => 'd' | 'E' => 'e' | 'F' => 'f'
  | 'G' => 'g' | 'H' => 'h' | 'I' => 'i' | 'J' => 'j' | 'K' => 'k' | 'L' => 'l'
  | 'M' => 'm' | 'N' => 'n' | 'O' => 'o' | 'P' => 'p' | 'Q' => 'q' | 'R' => 'r'
  | 'S' => 's' | 'T' => 't' | 'U' => 'u' | 'V' => 'v' | 'W' => 'w' | 'X' => 'x'
  | 'Y' => 'y' | 'Z' => 'z'
  | c => c

/-- Python `s.lower()` (ASCII case folding). -/
def lower (s : String) : String := String.mk (s.data.map lowerChar)

/-- The dedup loop of `normalize_words` (`flashcards.py:55-61`): walk the
words, keeping a word iff its lowercased key was not seen before. -/
def dedupCI : List String → List String → List String
  | [], _ => []
  | w :: ws, seen =>
      if lower w ∈ seen then dedupCI ws seen
      else w :: dedupCI ws (lower w :: seen)

/-- `normalize_words` (`flashcards.py:45-62`): strip each line, drop empty
lines, then case-insensitively deduplicate keeping first occurrences. -/
def normalize_words (text : String) : List String :=
  dedupCI (((splitlines text).map pyStrip).filter (fun w => w ≠ "")) []

/-- Specification-level deduplication, written the way the spec describes it:
keep the first occurrence of each case-insensitive key (first-seen casing
wins) and discard all later occurrences of the same key. -/
def specDedup : List String → List String
  | [] => []
  | w :: ws => w :: specDedup (ws.filter (fun u => lower u ≠ lower w))
termination_by l => l.length
decreasing_by
  simp_wf
  exact Nat.lt_succ_of_le (List.length_filter_le _ _)

/-- Specification-level normalization pipeline: split on line boundaries,
trim, drop empties, deduplicate case-insensitively. -/
def specNormalize (text : String) : List String :=
  specDedup (((splitlines text).map pyStrip).filter (fun w => w ≠ ""))

theorem dedupCI_eq_specDedup :
    ∀ (ws seen : List String),
      dedupCI ws seen = specDedup (ws.filter (fun w => lower w ∉ seen)) := by
  intro ws
  induction ws with
  | nil => intro seen; simp [dedupCI, specDedup]
  | cons w ws ih =>
      intro seen
      by_cases h : lower w ∈ seen
      · simp only [dedupCI, if_pos h, List.filter_cons]
        have hw : decide (lower w ∉ seen) = false := by simp [h]
        rw [hw]
        simpa using ih seen
      · simp only [dedupCI, if_neg h]
        have hfil : List.filter (fun u => decide (lower u ∉ seen)) (w :: ws)
            = w :: List.filter (fun u => decide (lower u ∉ seen)) ws := by
          simp [List.filter_cons, h]
        rw [hfil, specDedup, ih (lower w :: seen), List.filter_filter]
        congr 1
        congr 1
        apply List.filter_congr
        intro u _
        simp only [List.mem_cons, decide_not]
        by_cases h1 : lower u = lower w <;> by_cases h2 : lower u ∈ seen <;>
          simp [h1, h2]

/-- C3: `normalize_words` is exactly the spec pipeline — split on line
boundaries, trim each line, drop lines empty after trimming, deduplicate by
case-insensitive key keeping the first occurrence with its first-seen casing;
on the concrete example it yields `["Cat", "Dog"]`, and it is total, returning
`[]` on the empty input. -/
theorem normalize_words_correct :
    (∀ text : String, normalize_words text = specNormalize text) ∧
    normalize_words "Cat\ncat\nCAT\nDog" = ["Cat", "Dog"] ∧
    normalize_words "" = [] := by
  refine ⟨?_, by decide, by decide⟩
  intro text
  unfold normalize_words specNormalize
  rw [dedupCI_eq_specDedup]
  congr 1
  apply List.filter_eq_self.mpr
  intro a _
  simp

/-! Helper lemmas about stripping and deduplication. -/

theorem dropWhile_dropWhile (p : Char → Bool) (l : List Char) :
    (l.dropWhile p).dropWhile p = l.dropWhile p := by
  induction l with
  | nil => rfl
  | cons a l ih =>
      by_cases h : p a = true
      · simp [List.dropWhile_cons, h, ih]
      · simp [List.dropWhile_cons, h]

theorem length_dropWhile_le (p : Char → Bool) (l : List Char) :
    (l.dropWhile p).length ≤ l.length := by
  induction l with
  | nil => simp
  | cons a l ih =>
      by_cases h : p a = true
      · simp only [List.dropWhile_cons, h, if_true]
        exact Nat.le_trans ih (Nat.le_succ _)
      · simp [List.dropWhile_cons, h]

theorem dropWhile_suffix (p : Char → Bool) (l : List Char) :
    l.dropWhile p <:+ l := by
  induction l with
  | nil => simp
  | cons a l ih =>
      by_cases h : p a = true
      · simp only [List.dropWhile_cons, h, if_true]
        exact ih.trans (List.suffix_cons a l)
      · simp [List.dropWhile_cons, h]

theorem trimStart_trimStart (l : List Char) : trimStart (trimStart l) = trimStart l :=
  dropWhile_dropWhile _ l

theorem trimEnd_trimEnd (l : List Char) : trimEnd (trimEnd l) = trimEnd l := by
  unfold trimEnd
  rw [List.reverse_reverse, dropWhile_dropWhile]

theorem trimEnd_prefix (l : List Char) : trimEnd l <+: l := by
  have h := dropWhile_suffix isPySpace l.reverse
  have := List.reverse_prefix.mpr h
  simpa [trimEnd] using this

theorem trimStart_trimEnd_of_trimmed (l : List Char) (h : trimStart l = l) :
    trimStart (trimEnd l) = trimEnd l := by
  rcases htE : trimEnd l with _ | ⟨c, cs⟩
  · rfl
  · have hpre : trimEnd l <+: l := trimEnd_prefix l
    rw [htE] at hpre
    rcases hpre with ⟨t, ht⟩
    have hc : isPySpace c = false := by
      by_contra hcon
      have hc' : isPySpace c = true := by
        cases hcc : isPySpace c
        · exact absurd hcc hcon
        · rfl
      rw [← ht] at h
      simp [trimStart, List.dropWhile_cons, hc'] at h
      have hlen := length_dropWhile_le isPySpace (cs ++ t)
      rw [h] at hlen
      simp at hlen
    simp [trimStart, List.dropWhile_cons, hc]

theorem pyStrip_idem (s : String) : pyStrip (pyStrip s) = pyStrip s := by
  show String.mk (trimEnd (trimStart (trimEnd (trimStart s.data)))) = _
  rw [trimStart_trimEnd_of_trimmed _ (trimStart_trimStart s.data), trimEnd_trimEnd]
  rfl

theorem mem_of_mem_dedupCI : ∀ (ws seen : List String) (w : String),
    w ∈ dedupCI ws seen → w ∈ ws := by
  intro ws
  induction ws with
  | nil => intro seen w h; simp [dedupCI] at h
  | cons v ws ih =>
      intro seen w h
      by_cases hv : lower v ∈ seen
      · simp only [dedupCI, if_pos hv] at h
        exact List.mem_cons_of_mem _ (ih seen w h)
      · simp only [dedupCI, if_neg hv] at h
        rcases List.mem_cons.mp h with h | h
        · simp [h]
        · exact List.mem_cons_of_mem _ (ih _ w h)

theorem dedupCI_lower_not_seen : ∀ (ws seen : List String) (w : String),
    w ∈ dedupCI ws seen → lower w ∉ seen := by
  intro ws
  induction ws with
  | nil => intro seen w h; simp [dedupCI] at h
  | cons v ws ih =>
      intro seen w h
      by_cases hv : lower v ∈ seen
      · exact ih seen w (by simpa [dedupCI, if_pos hv] using h)
      · simp only [dedupCI, if_neg hv] at h
        rcases List.mem_cons.mp h with h | h
        · subst h; exact hv
        · intro hmem
          exact ih _ w h (List.mem_cons_of_mem _ hmem)

theorem dedupCI_lower_nodup : ∀ (ws seen : List String),
    ((dedupCI ws seen).map lower).Nodup := by
  intro ws
  induction ws with
  | nil => intro seen; simp [dedupCI]
  | cons v ws ih =>
      intro seen
      by_cases hv : lower v ∈ seen
      · simpa [dedupCI, if_pos hv] using ih seen
      · simp only [dedupCI, if_neg hv, List.map_cons, List.nodup_cons]
        refine ⟨?_, ih _⟩
        intro hmem
        rcases List.mem_map.mp hmem with ⟨u, hu, hlow⟩
        exact dedupCI_lower_not_seen ws (lower v :: seen) u hu (by simp [hlow])

theorem normalize_words_invariant (text : String) :
    (∀ w ∈ normalize_words text, pyStrip w ≠ "") ∧
    ((normalize_words text).map lower).Nodup := by
  constructor
  · intro w hw
    have hmem := mem_of_mem_dedupCI _ _ _ hw
    have hne : w ≠ "" := by
      have := List.of_mem_filter hmem
      simpa using this
    have hline : ∃ line, w = pyStrip line := by
      have := List.mem_of_mem_filter hmem
      rcases List.mem_map.mp this with ⟨line, _, h⟩
      exact ⟨line, h.symm⟩
    rcases hline with ⟨line, rfl⟩
    rw [pyStrip_idem]
    exact hne
  · exact dedupCI_lower_nodup _ _

/-! Persistence: `load_data` / `save_data` (`flashcards.py:14-42`).
The file channel is modelled by the `json.load` result: an `Option Json`
(`none` when the file exists but parsing raises) plus an existence flag. -/

/-- Python values produced by `json.load`: `None`, booleans, numbers
(modelled as integers), strings, lists, and dicts — whose keys are always
strings and which keep insertion order. -/
inductive Json where
  | null
  | bool (b : Bool)
  | num (n : Int)
  | str (s : String)
  | list (xs : List Json)
  | dict (entries : List (String × Json))

/-- Comma-separated join used by the Python container `repr`. -/
def commaSep : List String → String
  | [] => ""
  | [s] => s
  | s :: rest => s ++ ", " ++ commaSep rest

mutual
/-- Python `repr()` of a JSON-decoded value (string escaping elided). -/
def pyRepr : Json → String
  | .null => "None"
  | .bool true => "True"
  | .bool false => "False"
  | .num n => toString n
  | .str s => "\x27" ++ s ++ "\x27"
  | .list xs => "[" ++ commaSep (pyReprList xs) ++ "]"
  | .dict es => "\x7b" ++ commaSep (pyReprEntries es) ++ "\x7d"

/-- `repr` of each element of a list. -/
def pyReprList : List Json → List String
  | [] => []
  | x :: xs => pyRepr x :: pyReprList xs

/-- `repr` of each key/value pair of a dict. -/
def pyReprEntries : List (String × Json) → List String
  | [] => []
  | (k, v) :: es => ("\x27" ++ k ++ "\x27: " ++ pyRepr v) :: pyReprEntries es
end

/-- Python `str()` of a JSON-decoded value: the string itself for strings,
`repr`-like text for everything else. -/
def pyStr : Json → String
  | .str s => s
  | .null => "None"
  | .bool true => "True"
  | .bool false => "False"
  | .num n => toString n
  | .list xs => pyRepr (.list xs)
  | .dict es => pyRepr (.dict es)

/-- The element cleaning of `load_data` (`flashcards.py:30`):
`[str(x) for x in v if str(x).strip()]`. -/
def cleanList (xs : List Json) : List String :=
  (xs.map pyStr).filter (fun s => pyStrip s ≠ "")

/-- Python dict assignment `d[k] = v` on an insertion-ordered association
list: overwrite in place if the key exists, else append. -/
def setKey : List (String × List String) → String → List String →
    List (String × List String)
  | [], k, v => [(k, v)]
  | (k', v') :: rest, k, v =>
      if k' = k then (k, v) :: rest else (k', v') :: setKey rest k v

/-- Python dict `pop(k, None)`: drop the binding of `k` if present. -/
def eraseKey : List (String × List String) → String → List (String × List String)
  | [], _ => []
  | (k', v') :: rest, k => if k' = k then rest else (k', v') :: eraseKey rest k

/-- Association-list lookup, modelling Python dict indexing / `in`. -/
def lookupKey : List (String × List String) → String → Option (List String)
  | [], _ => none
  | (k', v) :: rest, k => if k' = k then some v else lookupKey rest k

/-- Python `k in d`. -/
def hasKey (c : List (String × List String)) (k : String) : Bool :=
  (lookupKey c k).isSome

/-- The entry-cleaning loop of `load_data` (`flashcards.py:27-31`): build
`cleaned` by iterating the parsed dict; keys are always strings after
`json.load`, so only the `isinstance(v, list)` test can drop an entry. -/
def cleanEntries (entries : List (String × Json)) : List (String × List String) :=
  entries.foldl
    (fun acc kv =>
      match kv.2 with
      | .list xs => setKey acc kv.1 (cleanList xs)
      | _ => acc)
    []

/-- `load_data` (`flashcards.py:14-34`): missing file, parse failure, or a
non-dict document yield the empty collection; a dict is cleaned entry-wise. -/
def load_data (fileExists : Bool) (parsed : Option Json) :
    List (String × List String) :=
  if !fileExists then []
  else
    match parsed with
    | none => []
    | some (.dict entries) => cleanEntries entries
    | some _ => []

/-- The JSON document `save_data` (`flashcards.py:37-42`) writes for a
collection: a dict of string keys mapped to lists of strings, which
`json.dump`/`json.load` transport exactly. -/
def encodeCollection (c : List (String × List String)) : Json :=
  .dict (c.map (fun p => (p.1, .list (p.2.map .str))))

/-- Whether a parsed value is a dict (a "well-formed mapping"). -/
def Json.isDict : Json → Bool
  | .dict _ => true
  | _ => false

/-- Specification-level entry cleaning, written as the spec describes it:
drop entries whose value is not a list, coerce kept elements to their textual
representation, drop elements that are empty after trimming. -/
def cleanEntriesSpec (entries : List (String × Json)) :
    List (String × List String) :=
  entries.filterMap
    (fun kv =>
      match kv.2 with
      | .list xs => some (kv.1, (xs.map pyStr).filter (fun s => pyStrip s ≠ ""))
      | _ => none)

theorem setKey_of_notMem (acc : List (String × List String)) (k : String)
    (v : List String) (h : k ∉ acc.map Prod.fst) :
    setKey acc k v = acc ++ [(k, v)] := by
  induction acc with
  | nil => rfl
  | cons p rest ih =>
      obtain ⟨k', v'⟩ := p
      simp only [List.map_cons, List.mem_cons] at h
      push_neg at h
      have hne : ¬(k' = k) := fun he => h.1 he.symm
      simp only [setKey, if_neg hne, List.cons_append]
      rw [ih h.2]

theorem mem_setKey (acc : List (String × List String)) (k : String)
    (v : List String) (p : String × List String) (h : p ∈ setKey acc k v) :
    p ∈ acc ∨ p = (k, v) := by
  induction acc with
  | nil => simp only [setKey] at h; simp at h; simp [h]
  | cons q rest ih =>
      obtain ⟨k', v'⟩ := q
      by_cases he : k' = k
      · simp only [setKey, if_pos he] at h
        rcases List.mem_cons.mp h with h | h
        · exact Or.inr h
        · exact Or.inl (List.mem_cons_of_mem _ h)
      · simp only [setKey, if_neg he] at h
        rcases List.mem_cons.mp h with h | h
        · exact Or.inl (by simp [h])
        · rcases ih h with h | h
          · exact Or.inl (List.mem_cons_of_mem _ h)
          · exact Or.inr h

theorem cleanEntries_fold_eq :
    ∀ (entries : List (String × Json)) (acc : List (String × List String)),
      (entries.map Prod.fst).Nodup →
      (∀ k ∈ entries.map Prod.fst, k ∉ acc.map Prod.fst) →
      entries.foldl
        (fun acc kv =>
          match kv.2 with
          | .list xs => setKey acc kv.1 (cleanList xs)
          | _ => acc)
        acc = acc ++ cleanEntriesSpec entries := by
  intro entries
  induction entries with
  | nil => intro acc _ _; simp [cleanEntriesSpec]
  | cons kv rest ih =>
      intro acc hnd hdisj
      obtain ⟨k, v⟩ := kv
      simp only [List.map_cons, List.nodup_cons] at hnd
      have hkacc : k ∉ acc.map Prod.fst := hdisj k (by simp)
      cases v with
      | list xs =>
          simp only [List.foldl_cons]
          rw [setKey_of_notMem acc k _ hkacc]
          have hdisj' : ∀ k' ∈ rest.map Prod.fst,
              k' ∉ (acc ++ [(k, cleanList xs)]).map Prod.fst := by
            intro k' hk'
            simp only [List.map_append, List.mem_append]
            push_neg
            refine ⟨hdisj k' (List.mem_cons_of_mem _ hk'), ?_⟩
            simp only [List.map_cons, List.map_nil, List.mem_singleton]
            intro hk
            exact hnd.1 (hk ▸ hk')
          rw [ih (acc ++ [(k, cleanList xs)]) hnd.2 hdisj']
          simp [cleanEntriesSpec, cleanList, List.filterMap_cons]
      | null =>
          simp only [List.foldl_cons]
          rw [ih acc hnd.2 (fun k' hk' => hdisj k' (List.mem_cons_of_mem _ hk'))]
          simp [cleanEntriesSpec]
      | bool b =>
          simp only [List.foldl_cons]
          rw [ih acc hnd.2 (fun k' hk' => hdisj k' (List.mem_cons_of_mem _ hk'))]
          simp [cleanEntriesSpec]
      | num n =>
          simp only [List.foldl_cons]
          rw [ih acc hnd.2 (fun k' hk' => hdisj k' (List.mem_cons_of_mem _ hk'))]
          simp [cleanEntriesSpec]
      | str s =>
          simp only [List.foldl_cons]
          rw [ih acc hnd.2 (fun k' hk' => hdisj k' (List.mem_cons_of_mem _ hk'))]
          simp [cleanEntriesSpec]
      | dict es =>
          simp only [List.foldl_cons]
          rw [ih acc hnd.2 (fun k' hk' => hdisj k' (List.mem_cons_of_mem _ hk'))]
          simp [cleanEntriesSpec]

/-- C7: `load_data` never fails visibly — a missing file, an unparseable
file, or a parsed document that is not a mapping all yield the empty
collection; for a well-formed mapping, entries whose value is not a list are
dropped (keys are always strings after JSON parsing), kept list elements are
coerced to their textual representation, and elements empty after trimming
are dropped. -/
theorem load_data_resilient :
    (∀ parsed, load_data false parsed = []) ∧
    load_data true none = [] ∧
    (∀ j : Json, j.isDict = false → load_data true (some j) = []) ∧
    (∀ entries : List (String × Json), (entries.map Prod.fst).Nodup →
      load_data true (some (.dict entries)) = cleanEntriesSpec entries) := by
  refine ⟨fun parsed => rfl, rfl, ?_, ?_⟩
  · intro j hj
    cases j <;> try rfl
    simp [Json.isDict] at hj
  · intro entries hnd
    show cleanEntries entries = cleanEntriesSpec entries
    unfold cleanEntries
    rw [cleanEntries_fold_eq entries [] hnd (by simp)]
    simp

/-- C7 witness: concrete instances — a non-dict document and a dict with an
ill-typed entry, a coerced number, and a whitespace-only element. -/
theorem load_data_resilient_witness :
    (Json.isDict (.num 3) = false ∧ load_data true (some (.num 3)) = []) ∧
    (([("A", Json.list [.str "Cat", .str "  ", .num 7]), ("B", .str "junk")].map
        (Prod.fst (α := String) (β := Json))).Nodup ∧
      load_data true
        (some (.dict [("A", .list [.str "Cat", .str "  ", .num 7]),
                      ("B", .str "junk")])) = [("A", ["Cat", "7"])]) := by
  constructor
  · exact ⟨by decide, load_data_resilient.2.2.1 (.num 3) (by decide)⟩
  · constructor
    · decide
    · rw [load_data_resilient.2.2.2
        [("A", .list [.str "Cat", .str "  ", .num 7]), ("B", .str "junk")]
        (by decide)]
      decide

theorem cleanEntriesSpec_encode (c : List (String × List String))
    (hwords : ∀ p ∈ c, ∀ w ∈ p.2, pyStrip w ≠ "") :
    cleanEntriesSpec (c.map fun p => (p.1, Json.list (p.2.map .str))) = c := by
  induction c with
  | nil => rfl
  | cons p rest ih =>
      obtain ⟨k, ws⟩ := p
      simp only [List.map_cons, cleanEntriesSpec, List.filterMap_cons]
      have hmap : (ws.map Json.str).map pyStr = ws := by
        rw [List.map_map]
        have : (pyStr ∘ Json.str) = id := by
          funext w
          rfl
        rw [this, List.map_id]
      have hfil : ws.filter (fun s => pyStrip s ≠ "") = ws := by
        apply List.filter_eq_self.mpr
        intro a ha
        simpa using hwords (k, ws) (by simp) a ha
      show ((k, (ws.map Json.str).map pyStr |>.filter (fun s => pyStrip s ≠ "")) ::
          cleanEntriesSpec (rest.map fun p => (p.1, Json.list (p.2.map .str)))) = _
      rw [hmap, hfil,
        ih (fun q hq w hw => hwords q (List.mem_cons_of_mem _ hq) w hw)]

/-- C8: for a collection every word of which is non-empty after trimming (as
is the case for anything produced by `save_new_set`), saving and re-loading
yields a structurally equal collection. -/
theorem save_load_roundtrip (c : List (String × List String))
    (hkeys : (c.map Prod.fst).Nodup)
    (hwords : ∀ p ∈ c, ∀ w ∈ p.2, pyStrip w ≠ "") :
    load_data true (some (encodeCollection c)) = c := by
  have h1 : ((c.map fun p => (p.1, Json.list (p.2.map Json.str))).map
      Prod.fst).Nodup := by
    simpa [List.map_map, Function.comp] using hkeys
  show cleanEntries (c.map fun p => (p.1, Json.list (p.2.map .str))) = c
  unfold cleanEntries
  rw [cleanEntries_fold_eq _ [] h1 (by simp), List.nil_append]
  exact cleanEntriesSpec_encode c hwords

/-- C8 witness: a concrete two-set collection round-trips exactly. -/
theorem save_load_roundtrip_witness :
    (([("A", ["Cat", "Dog"]), ("B", ["x"])].map
        (Prod.fst (α := String) (β := List String))).Nodup ∧
      (∀ p ∈ [("A", ["Cat", "Dog"]), ("B", ["x"])], ∀ w ∈ p.2, pyStrip w ≠ "")) ∧
    load_data true (some (encodeCollection [("A", ["Cat", "Dog"]), ("B", ["x"])])) =
      [("A", ["Cat", "Dog"]), ("B", ["x"])] :=
  ⟨⟨by decide, by decide⟩, save_load_roundtrip _ (by decide) (by decide)⟩

/-- The WordSet invariant of the spec data model: within every list, every
word is non-empty after trimming and no two words agree case-insensitively. -/
def wordSetInvariant (c : List (String × List String)) : Prop :=
  ∀ p ∈ c, (∀ w ∈ p.2, pyStrip w ≠ "") ∧ ((p.2.map lower).Nodup)

/-- C2 counterexample: loading a well-formed stored mapping that contains two
case-insensitively equal words yields a collection violating the WordSet
invariant — `load_data` does not re-deduplicate. -/
theorem load_breaks_invariant :
    ¬ wordSetInvariant
        (load_data true (some (.dict [("A", .list [.str "Cat", .str "cat"])]))) := by
  unfold wordSetInvariant
  decide

theorem mem_cleanEntries_fold_words :
    ∀ (entries : List (String × Json)) (acc : List (String × List String)),
      (∀ p ∈ acc, ∀ w ∈ p.2, pyStrip w ≠ "") →
      ∀ p ∈ entries.foldl
          (fun acc kv =>
            match kv.2 with
            | .list xs => setKey acc kv.1 (cleanList xs)
            | _ => acc)
          acc,
        ∀ w ∈ p.2, pyStrip w ≠ "" := by
  intro entries
  induction entries with
  | nil => intro acc hacc; simpa using hacc
  | cons kv rest ih =>
      intro acc hacc
      obtain ⟨k, v⟩ := kv
      cases v with
      | list xs =>
          simp only [List.foldl_cons]
          apply ih
          intro p hp w hw
          rcases mem_setKey acc k (cleanList xs) p hp with h | h
          · exact hacc p h w hw
          · subst h
            simp only [cleanList, List.mem_filter] at hw
            simpa using hw.2
      | null => simp only [List.foldl_cons]; exact ih acc hacc
      | bool b => simp only [List.foldl_cons]; exact ih acc hacc
      | num n => simp only [List.foldl_cons]; exact ih acc hacc
      | str s => simp only [List.foldl_cons]; exact ih acc hacc
      | dict es => simp only [List.foldl_cons]; exact ih acc hacc

/-- C2 (amended): word lists produced by normalization — which is exactly
what create/update stores — satisfy the WordSet invariant; `load_data`
guarantees that every loaded word is non-empty after trimming, but does not
re-deduplicate externally modified data case-insensitively. -/
theorem wordset_invariant_amended :
    (∀ text : String, (∀ w ∈ normalize_words text, pyStrip w ≠ "") ∧
       ((normalize_words text).map lower).Nodup) ∧
    (∀ (ex : Bool) (parsed : Option Json) (p : String × List String) (w : String),
       p ∈ load_data ex parsed → w ∈ p.2 → pyStrip w ≠ "") := by
  refine ⟨normalize_words_invariant, ?_⟩
  intro ex parsed p w hp hw
  cases ex with
  | false => simp [load_data] at hp
  | true =>
      cases parsed with
      | none => simp [load_data] at hp
      | some j =>
          cases j with
          | dict entries =>
              have : p ∈ cleanEntries entries := hp
              unfold cleanEntries at this
              exact mem_cleanEntries_fold_words entries [] (by simp) p this w hw
          | null => simp [load_data] at hp
          | bool b => simp [load_data] at hp
          | num n => simp [load_data] at hp
          | str s => simp [load_data] at hp
          | list xs => simp [load_data] at hp

/-- C2 (amended) witness: concrete instances of both conjuncts. -/
theorem wordset_invariant_amended_witness :
    ("Cat" ∈ normalize_words "Cat\ncat" ∧ pyStrip "Cat" ≠ "") ∧
    (("A", ["7"]) ∈ load_data true (some (.dict [("A", .list [.num 7])])) ∧
      pyStrip "7" ≠ "") :=
  ⟨⟨by decide, (wordset_invariant_amended.1 "Cat\ncat").1 "Cat" (by decide)⟩,
   ⟨by decide,
     wordset_invariant_amended.2 true (some (.dict [("A", .list [.num 7])]))
       ("A", ["7"]) "7" (by decide) (by decide)⟩⟩

/-! Sessions and controller operations of `FlashcardApp`.
`random.shuffle(x)` runs Fisher-Yates: for `i` from `len(x)-1` down to `1` it
draws `j` uniformly in `[0, i]` and swaps `x[i]` with `x[j]`. The draws are
modelled by an explicit tape of naturals, reduced mod `i+1`. -/

/-- The in-place swap `x[i], x[j] = x[j], x[i]` (identity out of range). -/
def swapL {α : Type*} (l : List α) (i j : Nat) : List α :=
  match l[i]?, l[j]? with
  | some a, some b => (l.set i b).set j a
  | _, _ => l

/-- The shuffle loop: first argument the list, second the loop counter `i`,
third the tape of random draws. -/
def fyAux {α : Type*} : List α → Nat → List Nat → List α
  | l, 0, _ => l
  | l, _+1, [] => l
  | l, i+1, r :: rs => fyAux (swapL l (i+1) (r % (i+2))) i rs

/-- `random.shuffle(x)` with an explicit randomness tape. -/
def fisherYates {α : Type*} (l : List α) (tape : List Nat) : List α :=
  fyAux l (l.length - 1) tape

theorem set_cons_perm {α : Type*} (b a : α) :
    ∀ (xs : List α) (k : Nat), xs[k]? = some b →
      (b :: xs.set k a).Perm (a :: xs) := by
  intro xs
  induction xs with
  | nil => intro k h; simp at h
  | cons x t ih =>
      intro k h
      cases k with
      | zero =>
          simp only [List.getElem?_cons_zero, Option.some_inj] at h
          subst h
          simp only [List.set_cons_zero]
          exact List.Perm.swap _ _ _
      | succ n =>
          simp only [List.getElem?_cons_succ] at h
          simp only [List.set_cons_succ]
          have h1 : List.Perm (b :: x :: t.set n a) (x :: b :: t.set n a) :=
            List.Perm.swap x b _
          have h2 : List.Perm (x :: b :: t.set n a) (x :: a :: t) :=
            List.Perm.cons x (ih n h)
          have h3 : List.Perm (x :: a :: t) (a :: x :: t) :=
            List.Perm.swap a x t
          exact (h1.trans h2).trans h3

theorem set_set_perm {α : Type*} :
    ∀ (l : List α) (i j : Nat) (a b : α), l[i]? = some a → l[j]? = some b →
      ((l.set i b).set j a).Perm l := by
  intro l
  induction l with
  | nil => intro i j a b hi _; simp at hi
  | cons x t ih =>
      intro i j a b hi hj
      cases i with
      | zero =>
          simp only [List.getElem?_cons_zero, Option.some_inj] at hi
          subst hi
          simp only [List.set_cons_zero]
          cases j with
          | zero =>
              simp only [List.getElem?_cons_zero, Option.some_inj] at hj
              subst hj
              simp only [List.set_cons_zero]
              exact List.Perm.refl _
          | succ m =>
              simp only [List.getElem?_cons_succ] at hj
              simp only [List.set_cons_succ]
              exact set_cons_perm b x t m hj
      | succ n =>
          simp only [List.getElem?_cons_succ] at hi
          cases j with
          | zero =>
              simp only [List.getElem?_cons_zero, Option.some_inj] at hj
              subst hj
              simp only [List.set_cons_succ, List.set_cons_zero]
              exact set_cons_perm a x t n hi
          | succ m =>
              simp only [List.getElem?_cons_succ] at hj
              simp only [List.set_cons_succ]
              exact List.Perm.cons x (ih n m a b hi hj)

theorem swapL_perm {α : Type*} (l : List α) (i j : Nat) :
    (swapL l i j).Perm l := by
  unfold swapL
  split
  next a b hi hj => exact set_set_perm l i j a b hi hj
  next => exact List.Perm.refl _

theorem fyAux_perm {α : Type*} :
    ∀ (tape : List Nat) (l : List α) (i : Nat), (fyAux l i tape).Perm l := by
  intro tape
  induction tape with
  | nil => intro l i; cases i <;> exact List.Perm.refl _
  | cons r rs ih =>
      intro l i
      cases i with
      | zero => exact List.Perm.refl _
      | succ i' =>
          exact (ih (swapL l (i' + 1) (r % (i' + 2))) i').trans
            (swapL_perm l (i' + 1) (r % (i' + 2)))

theorem fisherYates_perm {α : Type*} (l : List α) (tape : List Nat) :
    (fisherYates l tape).Perm l :=
  fyAux_perm tape l (l.length - 1)

/-- The mutable state of `FlashcardApp` (`flashcards.py:76-80`) together with
the persisted file contents (`stored`), which `save_data` overwrites. -/
structure AppState where
  data : List (String × List String)
  current_group_name : Option String
  session_words : List String
  index : Nat
  editing_group : Option String
  stored : List (String × List String)
deriving DecidableEq

/-- `start_session` (`flashcards.py:494-512`): warn and change nothing when
the name is absent or its list empty; otherwise install a shuffled copy with
cursor 0. The boolean reports whether the "Empty set" warning was shown. -/
def start_session (st : AppState) (group_name : String) (tape : List Nat) :
    AppState × Bool :=
  match lookupKey st.data group_name with
  | none => (st, true)
  | some ws =>
      if ws.isEmpty then (st, true)
      else
        ({ st with
            current_group_name := some group_name
            session_words := fisherYates ws tape
            index := 0 }, false)

/-- `reshuffle` (`flashcards.py:547-556`): no-op on an empty session, else a
new permutation with cursor reset to 0. -/
def reshuffle (st : AppState) (tape : List Nat) : AppState :=
  if st.session_words.isEmpty then st
  else { st with session_words := fisherYates st.session_words tape, index := 0 }

/-- `prev_card` (`flashcards.py:558-567`): silently does nothing on an empty
session or at cursor 0, else decrements the cursor. -/
def prev_card (st : AppState) : AppState :=
  if st.session_words.isEmpty then st
  else if 0 < st.index then { st with index := st.index - 1 }
  else st

/-- `next_card` (`flashcards.py:569-580`): increments the cursor when below
the last index, otherwise shows the "Done!" box (the boolean) and leaves the
state unchanged. -/
def next_card (st : AppState) : AppState × Bool :=
  if st.session_words.isEmpty then (st, false)
  else if st.index < st.session_words.length - 1 then
    ({ st with index := st.index + 1 }, false)
  else (st, true)

/-- The word shown for the current state (`_render_card`,
`flashcards.py:621-626`; the spec's `current_word`): none on an empty
session, else the word at the cursor. -/
def current_word (st : AppState) : Option String :=
  if st.session_words.isEmpty then none
  else st.session_words[st.index]?

/-- `delete_selected_group` (`flashcards.py:383-406`): abort when nothing is
selected or confirmation is declined; otherwise pop the entry, persist, and
clear the current group name. The final comparison is the one the source
performs — against the field that was already set to `None` two statements
earlier — so the session-clearing branch is unreachable. -/
def delete_selected_group (st : AppState) (selected : Option String)
    (confirmed : Bool) : AppState :=
  match selected with
  | none => st
  | some g =>
      if g = "" then st
      else if !confirmed then st
      else
        let st1 := { st with data := eraseKey st.data g }
        let st2 := { st1 with stored := st1.data }
        let st3 := { st2 with current_group_name := none }
        if st3.current_group_name = some g then
          { st3 with session_words := [], index := 0 }
        else st3

/-- Python truthiness of the optional `editing_group` field. -/
def optTruthy : Option String → Bool
  | none => false
  | some s => s ≠ ""

/-- The name `save_new_set` acts on (`flashcards.py:311-314`): the edit
target in edit mode, otherwise the stripped entry-field text. -/
def saveName (st : AppState) (entry_name : String) : String :=
  if optTruthy st.editing_group then st.editing_group.getD ""
  else pyStrip entry_name

/-- Outcome of `save_new_set`: which dialog path was taken. -/
inductive SaveOutcome where
  | missingName
  | noWords
  | declined
  | updated
  | saved
deriving DecidableEq

/-- `save_new_set` (`flashcards.py:304-345`): validate name and normalized
words, then either update in edit mode (persist, reselect, leave edit mode
and restart a session) or create/overwrite (asking before overwriting). -/
def save_new_set (st : AppState) (entry_name raw_text : String)
    (confirm_overwrite : Bool) (tape : List Nat) : AppState × SaveOutcome :=
  let words := normalize_words (pyStrip raw_text)
  let name := saveName st entry_name
  if name = "" then (st, .missingName)
  else if words.isEmpty then (st, .noWords)
  else if optTruthy st.editing_group then
    let st1 := { st with data := setKey st.data name words }
    let st2 := { st1 with stored := st1.data }
    let st3 := { st2 with current_group_name := some name }
    let st4 := { st3 with editing_group := none }
    ((start_session st4 name tape).1, .updated)
  else if hasKey st.data name && !confirm_overwrite then (st, .declined)
  else
    let st1 := { st with data := setKey st.data name words }
    let st2 := { st1 with stored := st1.data }
    let st3 := { st2 with current_group_name := some name }
    (st3, .saved)

/-- A state with an active session over set `"X"`, used as the failing input
for the delete/session interaction. -/
def deleteBugState : AppState :=
  { data := [("X", ["a"])]
    current_group_name := some "X"
    session_words := ["a"]
    index := 0
    editing_group := none
    stored := [("X", ["a"])] }

/-- C1: code bug. A confirmed delete of the active session's source set does
remove the entry and persist the collection, but the session-clearing branch
compares the deleted name against `current_group_name` only after that field
was already set to `None`, so it never fires: the shuffled words and cursor
survive and the current word is still shown, where the spec requires the
active session cleared and a `none` current word. -/
theorem delete_keeps_session_alive :
    lookupKey (delete_selected_group deleteBugState (some "X") true).data "X" = none ∧
    (delete_selected_group deleteBugState (some "X") true).stored =
      (delete_selected_group deleteBugState (some "X") true).data ∧
    (delete_selected_group deleteBugState (some "X") true).current_group_name = none ∧
    (delete_selected_group deleteBugState (some "X") true).session_words = ["a"] ∧
    current_word (delete_selected_group deleteBugState (some "X") true) = some "a" := by
  decide

/-- C4: on a non-empty session with in-range cursor (the Session invariant),
`next_card` at the last index reports the end-reached box and changes
nothing, otherwise it increments the cursor with no box; `prev_card` at
cursor 0 silently does nothing, otherwise it decrements the cursor. -/
theorem nav_boundaries (st : AppState) (hne : st.session_words ≠ [])
    (hidx : st.index < st.session_words.length) :
    (st.index = st.session_words.length - 1 → next_card st = (st, true)) ∧
    (st.index ≠ st.session_words.length - 1 →
      next_card st = ({ st with index := st.index + 1 }, false)) ∧
    (st.index = 0 → prev_card st = st) ∧
    (st.index ≠ 0 → prev_card st = { st with index := st.index - 1 }) := by
  have hemp : st.session_words.isEmpty = false := by
    simp [List.isEmpty_iff, hne]
  unfold next_card prev_card
  rw [hemp]
  simp only [if_neg Bool.false_ne_true]
  refine ⟨?_, ?_, ?_, ?_⟩
  · intro h; rw [if_neg (by omega)]
  · intro h; rw [if_pos (by omega)]
  · intro h; rw [if_neg (by omega)]
  · intro h; rw [if_pos (by omega)]

/-- A state with a two-word session at cursor 0. -/
def navState : AppState :=
  { data := [("X", ["a", "b"])]
    current_group_name := some "X"
    session_words := ["a", "b"]
    index := 0
    editing_group := none
    stored := [("X", ["a", "b"])] }

/-- C4 witness: the two-word session at cursor 0 satisfies the hypotheses,
and retreat there is a no-op. -/
theorem nav_boundaries_witness :
    (navState.session_words ≠ [] ∧
      navState.index < navState.session_words.length) ∧
    prev_card navState = navState :=
  ⟨⟨by decide, by decide⟩,
    (nav_boundaries navState (by decide) (by decide)).2.2.1 (by decide)⟩

/-- C10: navigation touches at most the cursor — the collection, the stored
file, the session's shuffled words, the current group and the edit marker
are unchanged by every `next_card` and `prev_card` call, the boundary calls
included. -/
theorem nav_frame (st : AppState) :
    ((next_card st).1.data = st.data ∧
     (next_card st).1.stored = st.stored ∧
     (next_card st).1.session_words = st.session_words ∧
     (next_card st).1.current_group_name = st.current_group_name ∧
     (next_card st).1.editing_group = st.editing_group) ∧
    ((prev_card st).data = st.data ∧
     (prev_card st).stored = st.stored ∧
     (prev_card st).session_words = st.session_words ∧
     (prev_card st).current_group_name = st.current_group_name ∧
     (prev_card st).editing_group = st.editing_group) := by
  unfold next_card prev_card
  split_ifs <;> simp

/-- C5: starting a review warns and leaves the whole state unchanged exactly
when the name is absent from the collection or its word list is empty;
otherwise no warning is shown and the session installed holds a permutation
of the set's word list with cursor 0, the collection and file untouched. -/
theorem start_session_spec (st : AppState) (g : String) (tape : List Nat) :
    ((lookupKey st.data g = none ∨ lookupKey st.data g = some []) →
      start_session st g tape = (st, true)) ∧
    (∀ ws, lookupKey st.data g = some ws → ws ≠ [] →
      (start_session st g tape).2 = false ∧
      ((start_session st g tape).1.session_words).Perm ws ∧
      (start_session st g tape).1.index = 0 ∧
      (start_session st g tape).1.current_group_name = some g ∧
      (start_session st g tape).1.data = st.data ∧
      (start_session st g tape).1.stored = st.stored) := by
  constructor
  · intro h
    rcases h with h | h
    · unfold start_session; rw [h]
    · unfold start_session; rw [h]; simp
  · intro ws hws hne
    have hemp : ws.isEmpty = false := by simp [List.isEmpty_iff, hne]
    unfold start_session
    simp only [hws, hemp]
    simp
    exact fisherYates_perm ws tape

/-- C5 witness: reviewing the existing non-empty set `"X"` yields a
permutation of its words. -/
theorem start_session_spec_witness :
    (lookupKey navState.data "X" = some ["a", "b"] ∧
      ["a", "b"] ≠ ([] : List String)) ∧
    ((start_session navState "X" [1]).1.session_words).Perm ["a", "b"] :=
  ⟨⟨by decide, by decide⟩,
    ((start_session_spec navState "X" [1]).2 ["a", "b"] (by decide)
      (by decide)).2.1⟩

/-- C6: reshuffle is a no-op on an empty session; otherwise it produces a
permutation of the same words and resets the cursor to 0, whatever the
cursor was, with collection and file untouched. -/
theorem reshuffle_spec (st : AppState) (tape : List Nat) :
    (st.session_words = [] → reshuffle st tape = st) ∧
    (st.session_words ≠ [] →
      ((reshuffle st tape).session_words).Perm st.session_words ∧
      (reshuffle st tape).index = 0 ∧
      (reshuffle st tape).data = st.data ∧
      (reshuffle st tape).stored = st.stored ∧
      (reshuffle st tape).current_group_name = st.current_group_name ∧
      (reshuffle st tape).editing_group = st.editing_group) := by
  constructor
  · intro h
    unfold reshuffle
    rw [h]
    simp
  · intro h
    have hemp : st.session_words.isEmpty = false := by
      simp [List.isEmpty_iff, h]
    unfold reshuffle
    simp [hemp]
    exact fisherYates_perm _ _

/-- A state mid-session: cursor advanced to 1. -/
def reshuffleState : AppState :=
  { data := [("X", ["a", "b"])]
    current_group_name := some "X"
    session_words := ["b", "a"]
    index := 1
    editing_group := none
    stored := [("X", ["a", "b"])] }

/-- C6 witness: from a non-zero cursor, reshuffle permutes the same words
and resets the cursor to 0. -/
theorem reshuffle_spec_witness :
    (reshuffleState.session_words ≠ [] ∧ reshuffleState.index = 1) ∧
    (((reshuffle reshuffleState [0]).session_words).Perm
        reshuffleState.session_words ∧
      (reshuffle reshuffleState [0]).index = 0) :=
  ⟨⟨by decide, by decide⟩,
    ⟨((reshuffle_spec reshuffleState [0]).2 (by decide)).1,
     ((reshuffle_spec reshuffleState [0]).2 (by decide)).2.1⟩⟩

/-- C9: `save_new_set` aborts with state and file untouched — with the
missing-name warning when the effective name is empty, with the no-words
warning when the normalized word list is empty, and silently when not in
edit mode, the name already exists, and the overwrite prompt is declined. -/
theorem save_new_set_aborts (st : AppState) (entry_name raw_text : String)
    (ok : Bool) (tape : List Nat) :
    (saveName st entry_name = "" →
      save_new_set st entry_name raw_text ok tape = (st, .missingName)) ∧
    (saveName st entry_name ≠ "" → normalize_words (pyStrip raw_text) = [] →
      save_new_set st entry_name raw_text ok tape = (st, .noWords)) ∧
    (saveName st entry_name ≠ "" → normalize_words (pyStrip raw_text) ≠ [] →
      optTruthy st.editing_group = false →
      hasKey st.data (saveName st entry_name) = true → ok = false →
      save_new_set st entry_name raw_text ok tape = (st, .declined)) := by
  refine ⟨?_, ?_, ?_⟩
  · intro h
    simp only [save_new_set]
    rw [if_pos h]
  · intro h1 h2
    simp only [save_new_set]
    rw [if_neg h1, if_pos (by simp [h2])]
  · intro h1 h2 h3 h4 h5
    simp only [save_new_set]
    rw [if_neg h1, if_neg (by simp [List.isEmpty_iff, h2]),
      if_neg (by simp [h3]), if_pos (by simp [h4, h5])]

/-- A plain state with one stored set and no session or edit in progress. -/
def plainState : AppState :=
  { data := [("X", ["a"])]
    current_group_name := none
    session_words := []
    index := 0
    editing_group := none
    stored := [("X", ["a"])] }

/-- C9 witness: a whitespace-only name aborts with no mutation. -/
theorem save_new_set_aborts_witness :
    saveName plainState "  " = "" ∧
    save_new_set plainState "  " "word" true [] =
      (plainState, .missingName) :=
  ⟨by decide,
    (save_new_set_aborts plainState "  " "word" true []).1 (by decide)⟩

end Flashcards
